import Mathlib

/-!
Shallow embedding of the `multisplice` string-splicing library (`src/lib.rs`).

Strings are modelled as `List Char`, so the byte offsets of the Rust code
become character offsets.  A Rust panic (a failed `assert!`) is modelled by
returning `none`, and the borrowed/owned distinction of a returned
`Cow<'a, str>` is modelled by the `Cow` inductive below.
-/

/-- A single splice range, modelling `struct Splice`: the half-open range
`[start, stop)` of source offsets to replace (Rust `range.start` /
`range.end`; `end` is a Lean keyword so the field is called `stop`) together
with the replacement `value`. -/
structure Splice where
  start : Nat
  stop : Nat
  value : List Char
deriving DecidableEq

/-- A multisplice operation, modelling `struct Multisplice`: the original
source string and the stored splice operations. -/
structure Multisplice where
  source : List Char
  splices : List Splice
deriving DecidableEq

/-- Rust's `Bound<&usize>`, as consumed by `get_start_bound`/`get_end_bound`. -/
inductive Bound where
  | included : Nat → Bound
  | excluded : Nat → Bound
  | unbounded : Bound

/-- Models `fn get_start_bound`. -/
def get_start_bound : Bound → Nat
  | .included n => n
  | .excluded n => n + 1
  | .unbounded => 0

/-- Models `fn get_end_bound`. -/
def get_end_bound : Bound → Nat → Nat
  | .included n, _ => n + 1
  | .excluded n, _ => n
  | .unbounded, u => u

/-- Models the Rust substring expression `&source[a..b]`; every occurrence in
`slice` is reached only with `a ≤ b ≤ source.len()`, where this agrees with
the Rust slicing. -/
def seg (s : List Char) (a b : Nat) : List Char :=
  (s.take b).drop a

/-- The borrowed/owned distinction of a returned `Cow<'a, str>`. -/
inductive Cow where
  | borrowed : List Char → Cow
  | owned : List Char → Cow
deriving DecidableEq

/-- Content of a `Cow` value. -/
def Cow.toList : Cow → List Char
  | .borrowed s => s
  | .owned s => s

/-- The sorted-insert loop of `Multisplice::splice_cow` over the stored
splices: for each stored splice in order it first runs the
`assert!(!(range.start <= start && range.end > start))` (a failure is
`none`), then breaks as soon as `range.start > start`, inserting the new
splice there; if the loop ends the new splice is pushed at the end. -/
def spliceLoop (sp : Splice) : List Splice → Option (List Splice)
  | [] => some [sp]
  | s :: rest =>
      if s.start ≤ sp.start ∧ s.stop > sp.start then none
      else if s.start > sp.start then some (sp :: s :: rest)
      else (spliceLoop sp rest).map (s :: ·)

/-- Models `Multisplice::splice_cow`.  A failed assert (splicing an already
spliced range) is `none`. -/
def Multisplice.splice_cow (m : Multisplice) (start stop : Nat)
    (value : List Char) : Option Multisplice :=
  (spliceLoop ⟨start, stop, value⟩ m.splices).map (fun l => ⟨m.source, l⟩)

/-- Models `Multisplice::splice`, which just converts the value and delegates
to `splice_cow`. -/
def Multisplice.splice (m : Multisplice) (start stop : Nat)
    (value : List Char) : Option Multisplice :=
  m.splice_cow start stop value

/-- Models `Multisplice::splice_range`. -/
def Multisplice.splice_range (m : Multisplice) (sb eb : Bound)
    (value : List Char) : Option Multisplice :=
  m.splice_cow (get_start_bound sb) (get_end_bound eb m.source.length) value

/-- The scan loop of `Multisplice::slice`: walks the stored splices with the
cursor `last` and the accumulated `result`, skipping splices with
`range.end <= last`, breaking at the first splice with `range.start >= end`,
and otherwise emitting the untouched gap (when `range.start >= last`)
followed by the splice's value, moving the cursor to `range.end`. -/
def sliceLoop (source : List Char) (qe : Nat) :
    List Splice → Nat → List Char → Nat × List Char
  | [], last, result => (last, result)
  | s :: rest, last, result =>
      if s.stop ≤ last then sliceLoop source qe rest last result
      else if s.start ≥ qe then (last, result)
      else if s.start ≥ last then
        sliceLoop source qe rest s.stop ((result ++ seg source last s.start) ++ s.value)
      else
        sliceLoop source qe rest s.stop (result ++ s.value)

/-- Epilogue of `Multisplice::slice` after the scan loop, given the final
cursor `r.1` and accumulated text `r.2`: when `end >= last` the untouched
tail is appended, and a `Cow::Borrowed` into the source is returned when the
accumulator stayed empty; otherwise the accumulated owned text is returned. -/
def slicePost (source : List Char) (stop : Nat) (r : Nat × List Char) : Cow :=
  if stop ≥ r.1 then
    if r.2 = [] then Cow.borrowed (seg source r.1 stop)
    else Cow.owned (r.2 ++ seg source r.1 stop)
  else Cow.owned r.2

/-- Models `Multisplice::slice`.  The initial
`assert!(end <= self.source.len())` becomes the outer guard (a failure is
`none`); then the scan loop runs followed by the epilogue `slicePost`. -/
def Multisplice.slice (m : Multisplice) (start stop : Nat) : Option Cow :=
  if stop ≤ m.source.length then
    some (slicePost m.source stop (sliceLoop m.source stop m.splices start []))
  else none

/-- Models `Multisplice::slice_range`. -/
def Multisplice.slice_range (m : Multisplice) (sb eb : Bound) : Option Cow :=
  m.slice (get_start_bound sb) (get_end_bound eb m.source.length)

/-- Models the `ToString` impl: `self.slice_range(..)` converted to an owned
string; only the character content is kept. -/
def Multisplice.to_string (m : Multisplice) : Option (List Char) :=
  (m.slice_range .unbounded .unbounded).map Cow.toList

/-- Registering a list of `(start, end, value)` edits in order, from a given
registry, modelling a sequence of `splice` calls; `none` if any call panics. -/
def regAll (m : Multisplice) : List (Nat × Nat × List Char) → Option Multisplice
  | [] => some m
  | (s, e, v) :: rest =>
      match m.splice_cow s e v with
      | none => none
      | some m' => regAll m' rest

/-- Ordered insertion before the first element whose `start` strictly exceeds
the new splice's `start` (so a new splice is placed after every stored splice
whose `start` is less than or equal to its own). -/
def insertSorted (sp : Splice) : List Splice → List Splice
  | [] => [sp]
  | s :: rest => if s.start > sp.start then sp :: s :: rest else s :: insertSorted sp rest

/-- Two splices occupy disjoint half-open ranges. -/
def disjointS (a b : Splice) : Prop :=
  a.stop ≤ b.start ∨ b.stop ≤ a.start

instance : DecidableRel disjointS := fun a b =>
  inferInstanceAs (Decidable (a.stop ≤ b.start ∨ b.stop ≤ a.start))

/-- Transcription of the specification's rendering scan, written from the
spec's words (not from the code): with a cursor `last`, skip every edit whose
end is at most `last`, stop at the first edit whose start is at least the
query end; for a remaining edit, if its start is at least `last` append the
untouched source gap and then its whole replacement value, otherwise append
its whole replacement value only, and move `last` to the edit's end; at the
end append the trailing source text exactly when the query end is at least
`last`. -/
def specScan (source : List Char) (qe : Nat) : List Splice → Nat → List Char
  | [], last => if qe ≥ last then seg source last qe else []
  | s :: rest, last =>
      if s.stop ≤ last then specScan source qe rest last
      else if s.start ≥ qe then (if qe ≥ last then seg source last qe else [])
      else if s.start ≥ last then
        seg source last s.start ++ (s.value ++ specScan source qe rest s.stop)
      else s.value ++ specScan source qe rest s.stop

/-- The spec's rendering of a query window over a registry. -/
def specSlice (m : Multisplice) (qs qe : Nat) : List Char :=
  specScan m.source qe m.splices qs

/-- The running example source string of the documentation, `"a b c d e"`. -/
def src9 : List Char := "a b c d e".toList

/-- The documentation registry with the single edit `(2,7) -> "beep and boop"`. -/
def exReg : Multisplice := ⟨src9, [⟨2, 7, "beep and boop".toList⟩]⟩

/-- C3: the overlap check is asymmetric.  Over source `"a b c d e"` with the
stored edit `(4,8)`, the registration `(2,6)` — whose end `6` falls strictly
inside `[4,8)` and which overlaps it — is accepted and stored, and the
registration `(2,9)` — whose range fully contains `[4,8)` while its start `2`
does not fall inside `[4,8)` — is likewise accepted and stored. -/
theorem overlap_check_asymmetric :
    (Multisplice.splice_cow ⟨src9, [⟨4, 8, "mid".toList⟩]⟩ 2 6 "in".toList
        = some ⟨src9, [⟨2, 6, "in".toList⟩, ⟨4, 8, "mid".toList⟩]⟩
      ∧ 4 < 6 ∧ 6 < 8 ∧ ¬ disjointS ⟨2, 6, "in".toList⟩ ⟨4, 8, "mid".toList⟩)
    ∧ (Multisplice.splice_cow ⟨src9, [⟨4, 8, "mid".toList⟩]⟩ 2 9 "all".toList
        = some ⟨src9, [⟨2, 9, "all".toList⟩, ⟨4, 8, "mid".toList⟩]⟩
      ∧ 2 ≤ 4 ∧ 8 ≤ 9 ∧ ¬ (4 ≤ 2 ∧ 2 < 8)) := by
  decide

/-- C6: rendering the full range of a registry with zero registered edits,
via `to_string` or `slice 0 length`, returns the original source unchanged
(and the slice is even borrowed from the source). -/
theorem empty_registry_identity (source : List Char) :
    Multisplice.to_string ⟨source, []⟩ = some source ∧
    (Multisplice.slice ⟨source, []⟩ 0 source.length).map Cow.toList = some source := by
  constructor
  · simp [Multisplice.to_string, Multisplice.slice_range, Multisplice.slice,
      get_start_bound, get_end_bound, sliceLoop, slicePost, seg, Cow.toList]
  · simp [Multisplice.slice, sliceLoop, slicePost, seg, Cow.toList]

/-- C4 counterexample: two mutually non-overlapping, in-bounds edits — the
two empty-range edits `(3,3) -> "x"` and `(3,3) -> "y"` over `"a b c d e"` —
registered in the two possible orders both succeed, yet the resulting
registries render different full strings, so registration order does affect
the output, refuting the claim as stated. -/
theorem registration_order_matters :
    disjointS ⟨3, 3, "x".toList⟩ ⟨3, 3, "y".toList⟩
    ∧ (3 : Nat) ≤ src9.length
    ∧ ((regAll ⟨src9, []⟩ [(3, 3, "x".toList), (3, 3, "y".toList)]).bind
        Multisplice.to_string = some "a bx c d e".toList)
    ∧ ((regAll ⟨src9, []⟩ [(3, 3, "y".toList), (3, 3, "x".toList)]).bind
        Multisplice.to_string = some "a by c d e".toList)
    ∧ ("a bx c d e".toList ≠ "a by c d e".toList) := by
  decide

/-- C9 counterexample: over `"a b c d e"` with the stored empty edit
`(3,3) -> "x"`, the registration `(3,5) -> "y"` — whose start equals the
stored edit's start — is accepted, but the new edit is inserted immediately
AFTER the existing equal-start edit, not before it as claimed. -/
theorem equal_start_inserts_after :
    Multisplice.splice_cow ⟨src9, [⟨3, 3, "x".toList⟩]⟩ 3 5 "y".toList
      = some ⟨src9, [⟨3, 3, "x".toList⟩, ⟨3, 5, "y".toList⟩]⟩
    ∧ ([⟨3, 3, "x".toList⟩, ⟨3, 5, "y".toList⟩] : List Splice)
      ≠ [⟨3, 5, "y".toList⟩, ⟨3, 3, "x".toList⟩] := by
  decide

/-! Helper lemmas about the sorted-insert loop. -/

/-- Whenever the insert loop succeeds, the resulting list is the ordered
insertion before the first stored splice with strictly greater start. -/
theorem spliceLoop_eq_insertSorted (sp : Splice) :
    ∀ l r, spliceLoop sp l = some r → r = insertSorted sp l := by
  intro l
  induction l with
  | nil =>
      intro r h
      simp only [spliceLoop, Option.some.injEq] at h
      simp [insertSorted, ← h]
  | cons s rest ih =>
      intro r h
      by_cases h1 : s.start ≤ sp.start ∧ s.stop > sp.start
      · rw [spliceLoop, if_pos h1] at h
        exact absurd h (by simp)
      · by_cases h2 : s.start > sp.start
        · rw [spliceLoop, if_neg h1, if_pos h2] at h
          rw [insertSorted, if_pos h2]
          exact (Option.some.inj h).symm
        · rw [spliceLoop, if_neg h1, if_neg h2] at h
          rw [insertSorted, if_neg h2]
          cases hr : spliceLoop sp rest with
          | none => rw [hr] at h; simp at h
          | some r2 =>
              rw [hr] at h
              simp only [Option.map_some', Option.some.injEq] at h
              rw [← h, ih r2 hr]

/-- When no stored splice's range covers the new start, the insert loop
succeeds and performs the ordered insertion. -/
theorem spliceLoop_some_of_not_covered (sp : Splice) :
    ∀ l, (∀ E ∈ l, ¬ (E.start ≤ sp.start ∧ sp.start < E.stop)) →
      spliceLoop sp l = some (insertSorted sp l) := by
  intro l
  induction l with
  | nil => intro _; simp [spliceLoop, insertSorted]
  | cons s rest ih =>
      intro hnc
      have h1 : ¬ (s.start ≤ sp.start ∧ s.stop > sp.start) :=
        hnc s (List.mem_cons_self s rest)
      rw [spliceLoop, if_neg h1]
      by_cases h2 : s.start > sp.start
      · rw [if_pos h2, insertSorted, if_pos h2]
      · rw [if_neg h2, insertSorted, if_neg h2,
          ih (fun E hE => hnc E (List.mem_cons_of_mem s hE))]
        rfl

/-- On a start-sorted list, the insert loop fails exactly when some stored
splice's range covers the new start. -/
theorem spliceLoop_none_iff (sp : Splice) :
    ∀ l, l.Pairwise (fun a b => a.start ≤ b.start) →
      (spliceLoop sp l = none ↔ ∃ E ∈ l, E.start ≤ sp.start ∧ sp.start < E.stop) := by
  intro l
  induction l with
  | nil => intro _; simp [spliceLoop]
  | cons s rest ih =>
      intro hsorted
      rw [List.pairwise_cons] at hsorted
      obtain ⟨hhead, htail⟩ := hsorted
      by_cases h1 : s.start ≤ sp.start ∧ s.stop > sp.start
      · rw [spliceLoop, if_pos h1]
        simp only [eq_self_iff_true, true_iff]
        exact ⟨s, List.mem_cons_self s rest, h1.1, h1.2⟩
      · by_cases h2 : s.start > sp.start
        · rw [spliceLoop, if_neg h1, if_pos h2]
          constructor
          · intro h; exact absurd h (by simp)
          · rintro ⟨E, hE, hc1, hc2⟩
            rcases List.mem_cons.mp hE with rfl | hE
            · omega
            · have := hhead E hE
              omega
        · rw [spliceLoop, if_neg h1, if_neg h2]
          rw [Option.map_eq_none']
          rw [ih htail]
          constructor
          · rintro ⟨E, hE, hc⟩
            exact ⟨E, List.mem_cons_of_mem s hE, hc⟩
          · rintro ⟨E, hE, hc1, hc2⟩
            rcases List.mem_cons.mp hE with rfl | hE
            · omega
            · exact ⟨E, hE, hc1, hc2⟩

/-- Whenever `splice_cow` succeeds, the source is unchanged and the splice
list is the ordered insertion of the new splice. -/
theorem splice_cow_splices (m : Multisplice) (s e : Nat) (v : List Char)
    (m' : Multisplice) (h : m.splice_cow s e v = some m') :
    m'.source = m.source ∧ m'.splices = insertSorted ⟨s, e, v⟩ m.splices := by
  unfold Multisplice.splice_cow at h
  cases hl : spliceLoop ⟨s, e, v⟩ m.splices with
  | none => rw [hl] at h; simp at h
  | some r =>
      rw [hl] at h
      simp only [Option.map_some', Option.some.injEq] at h
      rw [← h]
      exact ⟨rfl, spliceLoop_eq_insertSorted _ _ _ hl⟩

/-- C2: on a start-sorted registry (the invariant every reachable registry
satisfies, see C8), a registration fails with the overlap panic exactly when
some already-stored edit `E` satisfies `E.start <= start < E.end`; in
particular a registration merely touching an edit's end boundary succeeds. -/
theorem splice_overlap_iff (m : Multisplice) (s e : Nat) (v : List Char)
    (hsorted : m.splices.Pairwise (fun a b => a.start ≤ b.start)) :
    m.splice_cow s e v = none ↔ ∃ E ∈ m.splices, E.start ≤ s ∧ s < E.stop := by
  unfold Multisplice.splice_cow
  rw [Option.map_eq_none']
  exact spliceLoop_none_iff ⟨s, e, v⟩ m.splices hsorted

/-- Witness for C2 at the documentation registry: registering at start `7`,
exactly the stored edit `(2,7)`'s end boundary, does not fail. -/
theorem splice_overlap_iff_witness :
    (Multisplice.splice_cow exReg 7 9 "x".toList = none
      ↔ ∃ E ∈ exReg.splices, E.start ≤ 7 ∧ 7 < E.stop)
    ∧ Multisplice.splice_cow exReg 7 9 "x".toList ≠ none :=
  ⟨splice_overlap_iff exReg 7 9 "x".toList (by decide), by decide⟩

/-- C5: bounds are validated only when rendering: `slice` panics exactly on a
query end beyond the source length and always produces a value otherwise,
while a registration whose end exceeds the source length succeeds whenever
its start is not covered by a stored edit. -/
theorem bounds_checked_only_at_render :
    (∀ (m : Multisplice) (qs qe : Nat), m.source.length < qe →
      m.slice qs qe = none)
    ∧ (∀ (m : Multisplice) (qs qe : Nat), qe ≤ m.source.length →
      ∃ c, m.slice qs qe = some c)
    ∧ (∀ (m : Multisplice) (s e : Nat) (v : List Char),
      m.source.length < e →
      (∀ E ∈ m.splices, ¬ (E.start ≤ s ∧ s < E.stop)) →
      m.splice_cow s e v = some ⟨m.source, insertSorted ⟨s, e, v⟩ m.splices⟩) := by
  refine ⟨?_, ?_, ?_⟩
  · intro m qs qe h
    unfold Multisplice.slice
    rw [if_neg (by omega)]
  · intro m qs qe h
    unfold Multisplice.slice
    rw [if_pos h]
    exact ⟨_, rfl⟩
  · intro m s e v _ hnc
    unfold Multisplice.splice_cow
    rw [spliceLoop_some_of_not_covered ⟨s, e, v⟩ m.splices hnc]
    rfl

/-- Witness for C5 on the documentation registry (source length 9): the
query `(0,10)` panics, the query `(0,9)` succeeds, and registering `(9,12)`
— whose end exceeds the source length — succeeds. -/
theorem bounds_checked_only_at_render_witness :
    Multisplice.slice exReg 0 10 = none
    ∧ (∃ c, Multisplice.slice exReg 0 9 = some c)
    ∧ Multisplice.splice_cow exReg 9 12 "z".toList
        = some ⟨exReg.source, insertSorted ⟨9, 12, "z".toList⟩ exReg.splices⟩ :=
  ⟨bounds_checked_only_at_render.1 exReg 0 10 (by decide),
   bounds_checked_only_at_render.2.1 exReg 0 9 (by decide),
   bounds_checked_only_at_render.2.2 exReg 9 12 "z".toList (by decide) (by decide)⟩

/-- C9 (amended): on every accepted registration the new edit is inserted
immediately before the first stored edit whose start strictly exceeds the new
start — so a new edit whose start equals a stored edit's start is placed
after that stored edit, not before it. -/
theorem insert_before_first_greater_start (m : Multisplice) (s e : Nat)
    (v : List Char) (m' : Multisplice) (h : m.splice_cow s e v = some m') :
    m'.splices = insertSorted ⟨s, e, v⟩ m.splices :=
  (splice_cow_splices m s e v m' h).2

/-- Witness for C9 (amended) at the equal-start example: inserting `(3,5)`
into a registry whose stored edit `(3,3)` has the same start. -/
theorem insert_before_first_greater_start_witness :
    (⟨src9, [⟨3, 3, "x".toList⟩, ⟨3, 5, "y".toList⟩]⟩ : Multisplice).splices
      = insertSorted ⟨3, 5, "y".toList⟩ [⟨3, 3, "x".toList⟩] :=
  insert_before_first_greater_start ⟨src9, [⟨3, 3, "x".toList⟩]⟩ 3 5 "y".toList
    ⟨src9, [⟨3, 3, "x".toList⟩, ⟨3, 5, "y".toList⟩]⟩ (by decide)

/-- Ordered insertion is a permutation of consing. -/
theorem insertSorted_perm (sp : Splice) :
    ∀ l, (insertSorted sp l).Perm (sp :: l) := by
  intro l
  induction l with
  | nil => exact List.Perm.refl _
  | cons s rest ih =>
      rw [insertSorted]
      by_cases h : s.start > sp.start
      · rw [if_pos h]
      · rw [if_neg h]
        exact (ih.cons s).trans (List.Perm.swap sp s rest)

/-- Ordered insertion preserves sortedness by nondecreasing start. -/
theorem insertSorted_sorted_le (sp : Splice) :
    ∀ l, l.Pairwise (fun a b => a.start ≤ b.start) →
      (insertSorted sp l).Pairwise (fun a b => a.start ≤ b.start) := by
  intro l
  induction l with
  | nil => intro _; simp [insertSorted]
  | cons s rest ih =>
      intro hs
      rw [List.pairwise_cons] at hs
      obtain ⟨hhead, htail⟩ := hs
      rw [insertSorted]
      by_cases h : s.start > sp.start
      · rw [if_pos h]
        refine List.Pairwise.cons ?_ (List.Pairwise.cons hhead htail)
        intro b hb
        rcases List.mem_cons.mp hb with rfl | hb
        · omega
        · have := hhead b hb
          omega
      · rw [if_neg h]
        refine List.Pairwise.cons ?_ (ih htail)
        intro b hb
        rcases List.mem_cons.mp ((insertSorted_perm sp rest).mem_iff.mp hb) with rfl | h2
        · omega
        · exact hhead b h2

/-- Successful registration preserves the sorted-by-start invariant. -/
theorem regAll_sorted_le :
    ∀ (l : List (Nat × Nat × List Char)) (m m' : Multisplice),
      m.splices.Pairwise (fun a b => a.start ≤ b.start) →
      regAll m l = some m' →
      m'.splices.Pairwise (fun a b => a.start ≤ b.start) := by
  intro l
  induction l with
  | nil =>
      intro m m' hs h
      simp only [regAll, Option.some.injEq] at h
      rw [← h]; exact hs
  | cons x rest ih =>
      intro m m' hs h
      obtain ⟨s, e, v⟩ := x
      simp only [regAll] at h
      cases hsc : m.splice_cow s e v with
      | none => rw [hsc] at h; simp at h
      | some m1 =>
          rw [hsc] at h
          have h2 := splice_cow_splices m s e v m1 hsc
          refine ih m1 m' ?_ h
          rw [h2.2]
          exact insertSorted_sorted_le _ _ hs

/-- C8: starting from an empty registry, after every successful sequence of
registrations the stored splices are sorted by nondecreasing start offset. -/
theorem registrations_keep_sorted (src : List Char)
    (l : List (Nat × Nat × List Char)) (m : Multisplice)
    (h : regAll ⟨src, []⟩ l = some m) :
    m.splices.Pairwise (fun a b => a.start ≤ b.start) :=
  regAll_sorted_le l ⟨src, []⟩ m (by simp) h

/-- Witness for C8: registering `(6,7)` then `(2,3)` (unsorted order) over
`"a b c d e"` yields the sorted splice list. -/
theorem registrations_keep_sorted_witness :
    (⟨src9, [⟨2, 3, "beep".toList⟩, ⟨6, 7, "boop".toList⟩]⟩ :
        Multisplice).splices.Pairwise (fun a b => a.start ≤ b.start) :=
  registrations_keep_sorted src9 [(6, 7, "boop".toList), (2, 3, "beep".toList)]
    ⟨src9, [⟨2, 3, "beep".toList⟩, ⟨6, 7, "boop".toList⟩]⟩ (by decide)

/-- Dropping at the take point leaves nothing: the source segment from a
position to itself is empty. -/
theorem seg_self (s : List Char) (p : Nat) : seg s p p = [] := by
  unfold seg
  apply List.drop_eq_nil_of_le
  rw [List.length_take]
  exact min_le_left _ _

/-- When no stored splice is relevant to the window (each one ends at or
before the window start or starts at or after the window end), the scan loop
leaves the cursor and the empty accumulator untouched. -/
theorem sliceLoop_no_relevant (source : List Char) (qe qs : Nat) :
    ∀ l, (∀ E ∈ l, ¬ (E.start < qe ∧ qs < E.stop)) →
      sliceLoop source qe l qs [] = (qs, []) := by
  intro l
  induction l with
  | nil => intro _; rfl
  | cons s rest ih =>
      intro h
      have hhead := h s (List.mem_cons_self s rest)
      by_cases h1 : s.stop ≤ qs
      · rw [sliceLoop, if_pos h1]
        exact ih (fun E hE => h E (List.mem_cons_of_mem s hE))
      · have h2 : s.start ≥ qe := by omega
        rw [sliceLoop, if_neg h1, if_pos h2]

/-- C7: a query window `[qs, qe)` that overlaps no stored edit (in the
half-open-interval sense: no stored `E` has `E.start < qe` and `qs < E.stop`)
is answered with a `Cow::Borrowed` slice of the original source, not an
owned buffer. -/
theorem no_relevant_edit_borrows (m : Multisplice) (qs qe : Nat)
    (hq : qs ≤ qe) (hlen : qe ≤ m.source.length)
    (hno : ∀ E ∈ m.splices, ¬ (E.start < qe ∧ qs < E.stop)) :
    m.slice qs qe = some (Cow.borrowed (seg m.source qs qe)) := by
  unfold Multisplice.slice
  rw [if_pos hlen, sliceLoop_no_relevant m.source qe qs m.splices hno]
  simp [slicePost, hq]

/-- Witness for C7 at the documentation registry: the window `(7,9)` misses
the stored edit `(2,7)` and comes back borrowed. -/
theorem no_relevant_edit_borrows_witness :
    Multisplice.slice exReg 7 9 = some (Cow.borrowed (seg src9 7 9)) :=
  no_relevant_edit_borrows exReg 7 9 (by decide) (by decide) (by decide)

/-- When from the current cursor on every remaining splice is either already
consumed (`stop ≤ last`) or at or past the window end, the scan loop
changes nothing. -/
theorem sliceLoop_stall (source : List Char) (qe : Nat) :
    ∀ l (last : Nat) (acc : List Char),
      (∀ F ∈ l, F.stop ≤ last ∨ F.start ≥ qe) →
      sliceLoop source qe l last acc = (last, acc) := by
  intro l
  induction l with
  | nil => intro last acc _; rfl
  | cons s rest ih =>
      intro last acc h
      by_cases h2 : s.stop ≤ last
      · rw [sliceLoop, if_pos h2]
        exact ih last acc (fun F hF => h F (List.mem_cons_of_mem s hF))
      · rcases h s (List.mem_cons_self s rest) with h1 | h1
        · exact absurd h1 h2
        · rw [sliceLoop, if_neg h2, if_pos h1]

/-- On a sorted, mutually disjoint splice list, the empty window at a point
strictly inside the stored splice `E` makes the scan loop emit exactly `E`'s
replacement value. -/
theorem sliceLoop_inside (source : List Char) (p : Nat) :
    ∀ l, l.Pairwise (fun a b => a.start ≤ b.start) →
      l.Pairwise disjointS →
      ∀ E ∈ l, E.start < p → p < E.stop →
      sliceLoop source p l p [] = (E.stop, E.value) := by
  intro l
  induction l with
  | nil => intro _ _ E hE; exact absurd hE (List.not_mem_nil E)
  | cons s rest ih =>
      intro hsort hdisj E hE h1 h2
      rw [List.pairwise_cons] at hsort hdisj
      obtain ⟨hsh, hst⟩ := hsort
      obtain ⟨hdh, hdt⟩ := hdisj
      rcases List.mem_cons.mp hE with rfl | hE
      · have hn1 : ¬ (E.stop ≤ p) := by omega
        have hn2 : ¬ (E.start ≥ p) := by omega
        rw [sliceLoop, if_neg hn1, if_neg hn2, if_neg hn2, List.nil_append]
        apply sliceLoop_stall
        intro F hF
        rcases hdh F hF with hd | hd
        · right; omega
        · left; omega
      · have hss : s.start ≤ E.start := hsh E hE
        have hsd := hdh E hE
        unfold disjointS at hsd
        have hskip : s.stop ≤ p := by omega
        rw [sliceLoop, if_pos hskip]
        exact ih hst hdt E hE h1 h2

/-- C10: on a sorted registry of mutually disjoint, in-bounds edits, the
empty query window at a point `p` strictly inside a stored edit `E` renders
`E`'s entire replacement value, while an empty query window at a point not
strictly inside any stored edit renders the empty string. -/
theorem empty_window_semantics :
    (∀ (m : Multisplice) (p : Nat) (E : Splice),
      m.splices.Pairwise (fun a b => a.start ≤ b.start) →
      m.splices.Pairwise disjointS →
      (∀ F ∈ m.splices, F.stop ≤ m.source.length) →
      E ∈ m.splices → E.start < p → p < E.stop →
      (m.slice p p).map Cow.toList = some E.value)
    ∧ (∀ (m : Multisplice) (p : Nat), p ≤ m.source.length →
      (∀ E ∈ m.splices, ¬ (E.start < p ∧ p < E.stop)) →
      (m.slice p p).map Cow.toList = some []) := by
  constructor
  · intro m p E hsort hdisj hbd hE h1 h2
    have hp : p ≤ m.source.length := le_trans (le_of_lt h2) (hbd E hE)
    unfold Multisplice.slice
    rw [if_pos hp, sliceLoop_inside m.source p m.splices hsort hdisj E hE h1 h2]
    have hlt : ¬ (p ≥ E.stop) := by omega
    simp [slicePost, hlt, Cow.toList]
  · intro m p hp hno
    unfold Multisplice.slice
    rw [if_pos hp, sliceLoop_no_relevant m.source p p m.splices hno]
    simp [slicePost, seg_self, Cow.toList]

/-- Witness for C10 at the documentation registry: position `5` is strictly
inside the edit `(2,7)`, so `slice 5 5` renders the whole replacement, and
position `8` is inside no edit, so `slice 8 8` renders nothing. -/
theorem empty_window_semantics_witness :
    (Multisplice.slice exReg 5 5).map Cow.toList = some "beep and boop".toList
    ∧ (Multisplice.slice exReg 8 8).map Cow.toList = some [] :=
  ⟨empty_window_semantics.1 exReg 5 ⟨2, 7, "beep and boop".toList⟩ (by decide)
      (by decide) (by decide) (by decide) (by decide) (by decide),
   empty_window_semantics.2 exReg 8 (by decide) (by decide)⟩

/-- The scan loop's accumulator is a pure prefix: running with accumulator
`acc` is running with the empty accumulator and prepending `acc`. -/
theorem sliceLoop_acc (source : List Char) (qe : Nat) :
    ∀ l (last : Nat) (acc : List Char),
      sliceLoop source qe l last acc
        = ((sliceLoop source qe l last []).1,
           acc ++ (sliceLoop source qe l last []).2) := by
  intro l
  induction l with
  | nil => intro last acc; simp [sliceLoop]
  | cons s rest ih =>
      intro last acc
      by_cases h1 : s.stop ≤ last
      · rw [sliceLoop, if_pos h1, ih last acc]
        conv_rhs => rw [sliceLoop, if_pos h1]
      · by_cases h2 : s.start ≥ qe
        · rw [sliceLoop, if_neg h1, if_pos h2]
          conv_rhs => rw [sliceLoop, if_neg h1, if_pos h2]
          simp
        · by_cases h3 : s.start ≥ last
          · rw [sliceLoop, if_neg h1, if_neg h2, if_pos h3]
            conv_rhs => rw [sliceLoop, if_neg h1, if_neg h2, if_pos h3]
            rw [ih s.stop ((acc ++ seg source last s.start) ++ s.value),
              ih s.stop (([] ++ seg source last s.start) ++ s.value)]
            simp
          · rw [sliceLoop, if_neg h1, if_neg h2, if_neg h3]
            conv_rhs => rw [sliceLoop, if_neg h1, if_neg h2, if_neg h3]
            rw [ih s.stop (acc ++ s.value), ih s.stop ([] ++ s.value)]
            simp

/-- The code's scan loop followed by the tail append computes exactly the
spec's scan. -/
theorem sliceLoop_specScan (source : List Char) (qe : Nat) :
    ∀ l (last : Nat),
      (sliceLoop source qe l last []).2
        ++ (if qe ≥ (sliceLoop source qe l last []).1
              then seg source (sliceLoop source qe l last []).1 qe else [])
        = specScan source qe l last := by
  intro l
  induction l with
  | nil => intro last; simp [sliceLoop, specScan]
  | cons s rest ih =>
      intro last
      by_cases h1 : s.stop ≤ last
      · rw [sliceLoop, if_pos h1, specScan, if_pos h1]
        exact ih last
      · by_cases h2 : s.start ≥ qe
        · rw [sliceLoop, if_neg h1, if_pos h2, specScan, if_neg h1, if_pos h2]
          simp
        · by_cases h3 : s.start ≥ last
          · rw [sliceLoop, if_neg h1, if_neg h2, if_pos h3,
              specScan, if_neg h1, if_neg h2, if_pos h3]
            rw [sliceLoop_acc source qe rest s.stop (([] ++ seg source last s.start) ++ s.value)]
            rw [← ih s.stop]
            simp
          · rw [sliceLoop, if_neg h1, if_neg h2, if_neg h3,
              specScan, if_neg h1, if_neg h2, if_neg h3]
            rw [sliceLoop_acc source qe rest s.stop ([] ++ s.value)]
            rw [← ih s.stop]
            simp

/-- C1: for every registry of mutually disjoint, in-bounds edits and every
query `qs ≤ qe ≤ length`, `slice` returns exactly the string produced by the
spec's scan (`specSlice`); in particular the two documented partial-overlap
examples over `"a b c d e"` with the edit `(2,7) -> "beep and boop"` hold. -/
theorem slice_implements_spec_scan :
    (∀ (m : Multisplice) (qs qe : Nat),
        m.splices.Pairwise disjointS →
        (∀ E ∈ m.splices, E.stop ≤ m.source.length) →
        qs ≤ qe → qe ≤ m.source.length →
        (m.slice qs qe).map Cow.toList = some (specSlice m qs qe))
    ∧ (exReg.slice 0 5).map Cow.toList = some "a beep and boop".toList
    ∧ (exReg.slice 6 9).map Cow.toList = some "beep and boop e".toList := by
  refine ⟨?_, by decide, by decide⟩
  intro m qs qe _ _ _ hlen
  unfold Multisplice.slice
  rw [if_pos hlen]
  unfold specSlice
  rw [← sliceLoop_specScan m.source qe m.splices qs]
  unfold slicePost
  by_cases hge : qe ≥ (sliceLoop m.source qe m.splices qs []).1
  · rw [if_pos hge, if_pos hge]
    by_cases hnil : (sliceLoop m.source qe m.splices qs []).2 = []
    · rw [if_pos hnil, hnil]
      simp [Cow.toList]
    · rw [if_neg hnil]
      simp [Cow.toList]
  · rw [if_neg hge, if_neg hge]
    simp [Cow.toList]

/-- Witness for C1 on the documentation registry and the window `(0,5)`. -/
theorem slice_implements_spec_scan_witness :
    (exReg.slice 0 5).map Cow.toList = some (specSlice exReg 0 5) :=
  slice_implements_spec_scan.1 exReg 0 5 (by decide) (by decide) (by decide) (by decide)

/-- A `(start, end, value)` registration as a stored splice. -/
def toSplice (x : Nat × Nat × List Char) : Splice :=
  ⟨x.1, x.2.1, x.2.2⟩

/-- Two registrations occupy disjoint half-open ranges. -/
def tripleDisj (a b : Nat × Nat × List Char) : Prop :=
  a.2.1 ≤ b.1 ∨ b.2.1 ≤ a.1

instance : DecidableRel tripleDisj := fun a b =>
  inferInstanceAs (Decidable (a.2.1 ≤ b.1 ∨ b.2.1 ≤ a.1))

/-- Range disjointness of registrations is symmetric. -/
theorem tripleDisj_symm {a b : Nat × Nat × List Char} (h : tripleDisj a b) :
    tripleDisj b a :=
  h.symm

/-- Ordered insertion of a splice whose start differs from every stored start
preserves strict sortedness by start. -/
theorem insertSorted_sorted_lt (sp : Splice) :
    ∀ l, l.Pairwise (fun a b => a.start < b.start) →
      (∀ E ∈ l, E.start ≠ sp.start) →
      (insertSorted sp l).Pairwise (fun a b => a.start < b.start) := by
  intro l
  induction l with
  | nil => intro _ _; simp [insertSorted]
  | cons s rest ih =>
      intro hs hne
      rw [List.pairwise_cons] at hs
      obtain ⟨hhead, htail⟩ := hs
      rw [insertSorted]
      by_cases h : s.start > sp.start
      · rw [if_pos h]
        refine List.Pairwise.cons ?_ (List.Pairwise.cons hhead htail)
        intro b hb
        rcases List.mem_cons.mp hb with rfl | hb
        · omega
        · have := hhead b hb
          omega
      · rw [if_neg h]
        have hlt : s.start < sp.start := by
          have := hne s (List.mem_cons_self s rest)
          omega
        refine List.Pairwise.cons ?_
          (ih htail (fun E hE => hne E (List.mem_cons_of_mem s hE)))
        intro b hb
        rcases List.mem_cons.mp ((insertSorted_perm sp rest).mem_iff.mp hb) with rfl | h2
        · exact hlt
        · exact hhead b h2

/-- Registering a list of pairwise-disjoint, nonempty edits, all disjoint
from the strictly sorted nonempty stored splices, always succeeds and
produces a strictly sorted splice list that is a permutation of everything
registered. -/
theorem regAll_disjoint :
    ∀ (l : List (Nat × Nat × List Char)) (m : Multisplice),
      m.splices.Pairwise (fun a b => a.start < b.start) →
      (∀ x ∈ l, ∀ E ∈ m.splices, x.2.1 ≤ E.start ∨ E.stop ≤ x.1) →
      (∀ x ∈ l, x.1 < x.2.1) →
      (∀ E ∈ m.splices, E.start < E.stop) →
      l.Pairwise tripleDisj →
      ∃ m', regAll m l = some m'
        ∧ m'.source = m.source
        ∧ m'.splices.Pairwise (fun a b => a.start < b.start)
        ∧ m'.splices.Perm (l.map toSplice ++ m.splices) := by
  intro l
  induction l with
  | nil =>
      intro m hsort _ _ _ _
      exact ⟨m, rfl, rfl, hsort, by simp⟩
  | cons x rest ih =>
      intro m hsort hdisjM hne hneM hpl
      obtain ⟨s, e, v⟩ := x
      have hxl : ((s, e, v) : Nat × Nat × List Char) ∈ (s, e, v) :: rest :=
        List.mem_cons_self _ _
      have hse : s < e := by
        have := hne (s, e, v) hxl
        dsimp only at this
        exact this
      have hnc : ∀ E ∈ m.splices, ¬ (E.start ≤ s ∧ s < E.stop) := by
        intro E hE hcov
        have hd := hdisjM (s, e, v) hxl E hE
        dsimp only at hd
        omega
      have hsc : m.splice_cow s e v
          = some ⟨m.source, insertSorted ⟨s, e, v⟩ m.splices⟩ := by
        unfold Multisplice.splice_cow
        rw [spliceLoop_some_of_not_covered ⟨s, e, v⟩ m.splices hnc]
        rfl
      have hneq : ∀ E ∈ m.splices, E.start ≠ s := by
        intro E hE heq
        refine hnc E hE ⟨le_of_eq heq, ?_⟩
        have := hneM E hE
        omega
      have hsort1 : (insertSorted ⟨s, e, v⟩ m.splices).Pairwise
          (fun a b => a.start < b.start) :=
        insertSorted_sorted_lt ⟨s, e, v⟩ m.splices hsort hneq
      have hdisjM1 : ∀ x ∈ rest, ∀ E ∈ insertSorted ⟨s, e, v⟩ m.splices,
          x.2.1 ≤ E.start ∨ E.stop ≤ x.1 := by
        intro x hx E hE
        rcases List.mem_cons.mp
            ((insertSorted_perm ⟨s, e, v⟩ m.splices).mem_iff.mp hE) with rfl | hE2
        · have hd := (List.pairwise_cons.mp hpl).1 x hx
          unfold tripleDisj at hd
          dsimp only at hd ⊢
          omega
        · exact hdisjM x (List.mem_cons_of_mem _ hx) E hE2
      have hneM1 : ∀ E ∈ insertSorted ⟨s, e, v⟩ m.splices, E.start < E.stop := by
        intro E hE
        rcases List.mem_cons.mp
            ((insertSorted_perm ⟨s, e, v⟩ m.splices).mem_iff.mp hE) with rfl | hE2
        · exact hse
        · exact hneM E hE2
      obtain ⟨m', hreg, hsrc, hsort2, hperm2⟩ :=
        ih ⟨m.source, insertSorted ⟨s, e, v⟩ m.splices⟩ hsort1 hdisjM1
          (fun x hx => hne x (List.mem_cons_of_mem _ hx)) hneM1
          (List.pairwise_cons.mp hpl).2
      refine ⟨m', ?_, hsrc, hsort2, ?_⟩
      · simp only [regAll]
        rw [hsc]
        exact hreg
      · refine hperm2.trans ?_
        have h1 : (insertSorted ⟨s, e, v⟩ m.splices).Perm (⟨s, e, v⟩ :: m.splices) :=
          insertSorted_perm _ _
        refine ((h1.append_left (rest.map toSplice)).trans List.perm_middle).trans ?_
        simp [toSplice]

/-- C4 (amended): for every finite collection of mutually disjoint, in-bounds
edits each with `start < end`, registering them in any two orders succeeds
and the resulting registries render the same output for every query window
(the registries are in fact equal).  Without `start < end` the claim fails,
see the counterexample with two empty-range edits. -/
theorem registration_order_independent (src : List Char)
    (l1 l2 : List (Nat × Nat × List Char))
    (hperm : l1.Perm l2)
    (hdisj : l1.Pairwise tripleDisj)
    (hne : ∀ x ∈ l1, x.1 < x.2.1)
    (_hbd : ∀ x ∈ l1, x.2.1 ≤ src.length) :
    ∃ m1 m2, regAll ⟨src, []⟩ l1 = some m1 ∧ regAll ⟨src, []⟩ l2 = some m2
      ∧ ∀ qs qe, m1.slice qs qe = m2.slice qs qe := by
  obtain ⟨m1, hr1, hs1, hsort1, hp1⟩ :=
    regAll_disjoint l1 ⟨src, []⟩ List.Pairwise.nil
      (fun _ _ E hE => absurd hE (List.not_mem_nil E)) hne
      (fun E hE => absurd hE (List.not_mem_nil E)) hdisj
  obtain ⟨m2, hr2, hs2, hsort2, hp2⟩ :=
    regAll_disjoint l2 ⟨src, []⟩ List.Pairwise.nil
      (fun _ _ E hE => absurd hE (List.not_mem_nil E))
      (fun x hx => hne x (hperm.mem_iff.mpr hx))
      (fun E hE => absurd hE (List.not_mem_nil E))
      ((hperm.pairwise_iff (fun h => tripleDisj_symm h)).mp hdisj)
  have hps : m1.splices.Perm m2.splices := by
    refine hp1.trans (List.Perm.trans ?_ hp2.symm)
    simp only [List.append_nil]
    exact hperm.map toSplice
  haveI : IsAntisymm Splice (fun a b => a.start < b.start) :=
    ⟨fun a b h1 h2 => absurd (lt_trans h1 h2) (lt_irrefl _)⟩
  have hsp : m1.splices = m2.splices := List.eq_of_perm_of_sorted hps hsort1 hsort2
  have hsrc : m1.source = m2.source := hs1.trans hs2.symm
  have hmeq : m1 = m2 := by
    obtain ⟨sa, pa⟩ := m1
    obtain ⟨sb, pb⟩ := m2
    rw [Multisplice.mk.injEq]
    exact ⟨hsrc, hsp⟩
  exact ⟨m1, m2, hr1, hr2, fun qs qe => by rw [hmeq]⟩

/-- Witness for C4 (amended): the two orders of registering the disjoint
nonempty edits `(2,3) -> "beep"` and `(6,7) -> "boop"` over `"a b c d e"`. -/
theorem registration_order_independent_witness :
    ∃ m1 m2,
      regAll ⟨src9, []⟩ [(6, 7, "boop".toList), (2, 3, "beep".toList)] = some m1
      ∧ regAll ⟨src9, []⟩ [(2, 3, "beep".toList), (6, 7, "boop".toList)] = some m2
      ∧ ∀ qs qe, m1.slice qs qe = m2.slice qs qe :=
  registration_order_independent src9
    [(6, 7, "boop".toList), (2, 3, "beep".toList)]
    [(2, 3, "beep".toList), (6, 7, "boop".toList)]
    (by decide) (by decide) (by decide) (by decide)
